import Mathlib

/-!
Verification of the event store of `src/calendar_app.py`.

The store is the `self.events` dictionary of `CalendarApp` together with its
persistence helpers `_load_events` / `_save_events`, the mutation performed by
`save_and_close` inside `open_event_dialog`, and the bulk delete `clear_month`.
Python strings are modelled as lists of characters, the parsed JSON document
of the backing file as the inductive type `Json`, and the backing file itself
as `File` (absent, present-but-unparsable text, or a parsed JSON value; the
identity `json.loads (json.dumps v) = v` for the values the program writes is
what lets a written file be represented by its parsed value).  Dictionaries
are modelled as association lists in insertion order, which is how Python
dictionaries iterate.
-/

namespace CalendarApp

/-- Python strings, modelled as lists of characters. -/
abbrev Str := List Char

/-- Source type alias `DateKey = Tuple[int, int, int]`: `(year, month, day)`. -/
abbrev DateKey := Int × Int × Int

/-- Parsed JSON values.  Numbers are modelled as integers; no claim involves
fractional numbers. -/
inductive Json where
  | jnull : Json
  | jbool : Bool → Json
  | jnum : Int → Json
  | jstr : Str → Json
  | jarr : List Json → Json
  | jobj : List (Str × Json) → Json

/-- The in-memory store `self.events : Dict[DateKey, DateData]`, as an
association list in insertion order.  Values are arbitrary JSON values
because `_load_events` inserts non-string parsed values verbatim. -/
abbrev Events := List (DateKey × Json)

/-- Python dictionary lookup `events.get(key)`. -/
def lookupEv : Events → DateKey → Option Json
  | [], _ => none
  | (k, v) :: rest, d => if k = d then some v else lookupEv rest d

/-- Python dictionary assignment `events[key] = value`: overwrite in place if
the key is present, otherwise append at the end. -/
def dictInsert : Events → DateKey → Json → Events
  | [], k, v => [(k, v)]
  | (k0, v0) :: rest, k, v =>
    if k0 = k then (k0, v) :: rest else (k0, v0) :: dictInsert rest k v

/-- The record literal written by the source in `save_and_close` and in the
legacy branch of `_load_events`:
an object with the two fields `choice` and `note`. -/
def eventObj (choice note : Str) : Json :=
  Json.jobj [("choice".toList, Json.jstr choice), ("note".toList, Json.jstr note)]

/-- Test `isinstance(value, str)`. -/
def isJStr : Json → Bool
  | Json.jstr _ => true
  | _ => false

/-- Test whether a JSON value is an object (a Python `dict`, on which
`.items()` succeeds). -/
def isJObj : Json → Bool
  | Json.jobj _ => true
  | _ => false

/-- Per-entry value handling of `_load_events`: a bare string `s` becomes
the record with `choice` `s` and empty `note`; any other value is kept
verbatim. -/
def normalizeValue : Json → Json
  | Json.jstr s => eventObj s []
  | v => v

/-- Decimal digit characters of a natural number, most significant first,
with an explicit fuel argument for structural recursion; `fuel` must exceed
the number being printed. -/
def natToCharsAux : Nat → Nat → Str
  | 0, _ => []
  | fuel + 1, n =>
    if n < 10 then [Nat.digitChar n]
    else natToCharsAux fuel (n / 10) ++ [Nat.digitChar (n % 10)]

/-- Decimal representation of a natural number: the characters of
Python `str(n)` for `n >= 0`. -/
def natToChars (n : Nat) : Str := natToCharsAux (n + 1) n

/-- Characters of Python `str(z)` for an integer `z`: a leading minus sign
for negative values, then the decimal digits. -/
def intToChars (z : Int) : Str :=
  if z < 0 then '-' :: natToChars z.natAbs else natToChars z.toNat

/-- The serialized key built in `_save_events`: the characters of the
f-string interpolation `"{y}-{m}-{d}"`. -/
def formatKey (y m d : Int) : Str :=
  intToChars y ++ ('-' :: (intToChars m ++ ('-' :: intToChars d)))

/-- Python `s.split("-")`: split at every dash, keeping empty pieces. -/
def splitOnDash : Str → List Str
  | [] => [[]]
  | c :: cs =>
    match splitOnDash cs with
    | [] => [[]]
    | p :: ps => if c = '-' then [] :: p :: ps else (c :: p) :: ps

/-- Numeric value of a decimal digit character. -/
def digitVal (c : Char) : Nat := c.toNat - 48

/-- Decimal value of a digit string, most significant digit first. -/
def decVal (l : Str) : Nat := l.foldl (fun a c => a * 10 + digitVal c) 0

/-- Remaining digits of a Python integer literal after its first digit:
decimal digits, optionally separated by single underscores. -/
def moreDigits : Nat → Str → Option Nat
  | acc, [] => some acc
  | acc, c :: cs =>
    if c = '_' then
      match cs with
      | [] => none
      | c2 :: cs2 =>
        if c2.isDigit then moreDigits (acc * 10 + digitVal c2) cs2 else none
    else if c.isDigit then moreDigits (acc * 10 + digitVal c) cs
    else none

/-- Digit part of a Python integer literal: at least one decimal digit,
with single underscores allowed between digits. -/
def digitsValue : Str → Option Nat
  | [] => none
  | c :: cs => if c.isDigit then moreDigits (digitVal c) cs else none

/-- Characters stripped by Python `int()` around the number. -/
def isPySpace (c : Char) : Bool :=
  c == ' ' || c == '\t' || c == '\n' || c == '\r' || c == '\x0b' || c == '\x0c'

/-- Strip leading and trailing whitespace. -/
def stripWS (l : Str) : Str :=
  ((l.dropWhile isPySpace).reverse.dropWhile isPySpace).reverse

/-- Python `int(s)` on a string: optional surrounding whitespace, an optional
sign, then a decimal digit part; `none` models the `ValueError` raised on
any other input. -/
def pyInt (l : Str) : Option Int :=
  match stripWS l with
  | [] => none
  | c :: r =>
    if c = '-' then (digitsValue r).map (fun n => -(n : Int))
    else if c = '+' then (digitsValue r).map (fun n => (n : Int))
    else (digitsValue (c :: r)).map (fun n => (n : Int))

/-- The key parsing `y, m, d = map(int, iso_str.split("-"))` of
`_load_events`: the split must have exactly three pieces and each must be
accepted by `int()`; any other outcome raises, which the caller's
`except Exception` turns into `none` here. -/
def parseKey (s : Str) : Option DateKey :=
  match splitOnDash s with
  | [a, b, c] =>
    match pyInt a, pyInt b, pyInt c with
    | some y, some m, some d => some (y, m, d)
    | _, _, _ => none
  | _ => none

/-- The backing file `events.json`. -/
inductive File where
  | absent : File
  | garbage : File
  | content : Json → File

/-- The entry loop of `_load_events` over `data.items()`.  A key that fails
to parse raises inside the loop; the surrounding `except Exception: pass`
aborts the remaining entries but keeps everything already inserted. -/
def loadEntries : Events → List (Str × Json) → Events
  | ev, [] => ev
  | ev, (k, v) :: rest =>
    match parseKey k with
    | none => ev
    | some dk => loadEntries (dictInsert ev dk (normalizeValue v)) rest

/-- Source `CalendarApp._load_events`, acting on the current store and the
backing file.  The second component records whether an exception escapes to
the caller; the `except Exception: pass` guarantees it never does.  A
missing file skips the body; unparsable text makes `json.loads` raise; a
parsed non-object makes `data.items()` raise. -/
def load_events (ev : Events) (f : File) : Events × Bool :=
  match f with
  | File.absent => (ev, false)
  | File.garbage => (ev, false)
  | File.content (Json.jobj kvs) => (loadEntries ev kvs, false)
  | File.content _ => (ev, false)

/-- The dictionary comprehension of `_save_events`:
each `(y, m, d)` entry becomes a `"{y}-{m}-{d}"` entry. -/
def encodeEntry (p : DateKey × Json) : Str × Json :=
  (formatKey p.1.1 p.1.2.1 p.1.2.2, p.2)

/-- Entry list of the serialized document, in store order. -/
def saveEntries (ev : Events) : List (Str × Json) := ev.map encodeEntry

/-- The JSON document written by `_save_events`. -/
def saveData (ev : Events) : Json := Json.jobj (saveEntries ev)

/-- Source `CalendarApp._save_events`.  `writeOk` is whether
`Path.write_text` succeeds; on failure the `except Exception: pass` leaves
the file as it was.  The last component records whether an exception escapes
to the caller; it never does. -/
def save_events (ev : Events) (f : File) (writeOk : Bool) : Events × File × Bool :=
  if writeOk then (ev, File.content (saveData ev), false) else (ev, f, false)

/-- The store mutation of `save_and_close` inside `open_event_dialog`:
`self.events[key] = dict of choice and note` followed by `_save_events`. -/
def save_and_close (ev : Events) (key : DateKey) (choice note : Str)
    (f : File) (writeOk : Bool) : Events × File × Bool :=
  save_events (dictInsert ev key (eventObj choice note)) f writeOk

/-- Source `CalendarApp.clear_month` after the user confirms: delete every
entry whose key has the selected year and month, in place, keeping the other
entries in order.  (`_save_events` is invoked afterwards by the source;
theorems compose it explicitly.) -/
def clear_month (ev : Events) (y m : Int) : Events :=
  ev.filter (fun p => decide (¬ (p.1.1 = y ∧ p.1.2.1 = m)))

/-- A sequence of user edits: each step runs `save_and_close` on the current
store and backing file with a successful write. -/
def applyOps : Events × File → List (DateKey × Str × Str) → Events × File
  | s, [] => s
  | (ev, f), (k, c, n) :: rest =>
    let r := save_and_close ev k c n f true
    applyOps (r.1, r.2.1) rest

/-- The in-memory effect of a sequence of `save_and_close` calls. -/
def opsApply : Events → List (DateKey × Str × Str) → Events
  | ev, [] => ev
  | ev, (k, c, n) :: rest => opsApply (dictInsert ev k (eventObj c n)) rest

/-- Whether some entry of the backing file parses to the given date key. -/
def fileMentionsB (f : File) (d : DateKey) : Bool :=
  match f with
  | File.content (Json.jobj kvs) => kvs.any (fun kv => decide (parseKey kv.1 = some d))
  | _ => false

/-! ### Facts about decimal printing and `int()` parsing -/

theorem digitChar_isDigit : ∀ d, d < 10 → (Nat.digitChar d).isDigit = true := by decide

theorem digitVal_digitChar : ∀ d, d < 10 → digitVal (Nat.digitChar d) = d := by decide

theorem digitChar_ne_zeroChar : ∀ d, d < 10 → d ≠ 0 → Nat.digitChar d ≠ '0' := by decide

theorem isDigit_ne_dash {c : Char} (h : c.isDigit = true) : c ≠ '-' := by
  intro hc
  rw [hc] at h
  exact absurd h (by decide)

theorem isDigit_ne_plus {c : Char} (h : c.isDigit = true) : c ≠ '+' := by
  intro hc
  rw [hc] at h
  exact absurd h (by decide)

theorem isDigit_ne_underscore {c : Char} (h : c.isDigit = true) : c ≠ '_' := by
  intro hc
  rw [hc] at h
  exact absurd h (by decide)

theorem space_not_digit {c : Char} (h : isPySpace c = true) : c.isDigit = false := by
  simp only [isPySpace, Bool.or_eq_true, beq_iff_eq] at h
  rcases h with ((((h | h) | h) | h) | h) | h <;> subst h <;> decide

theorem isDigit_not_space {c : Char} (h : c.isDigit = true) : isPySpace c = false := by
  cases hs : isPySpace c with
  | false => rfl
  | true =>
    rw [space_not_digit hs] at h
    exact absurd h (by decide)

theorem natToCharsAux_all_digit :
    ∀ fuel n, n < fuel → ∀ c ∈ natToCharsAux fuel n, c.isDigit = true := by
  intro fuel
  induction fuel with
  | zero => intro n hn; omega
  | succ fuel ih =>
    intro n hn c hc
    by_cases h10 : n < 10
    · simp only [natToCharsAux, if_pos h10, List.mem_singleton] at hc
      subst hc
      exact digitChar_isDigit n h10
    · simp only [natToCharsAux, if_neg h10, List.mem_append, List.mem_singleton] at hc
      rcases hc with hc | hc
      · exact ih (n / 10) (by omega) c hc
      · subst hc
        exact digitChar_isDigit (n % 10) (by omega)

theorem decVal_append_digit (l : Str) (c : Char) :
    decVal (l ++ [c]) = decVal l * 10 + digitVal c := by
  simp [decVal, List.foldl_append]

theorem decVal_natToCharsAux :
    ∀ fuel n, n < fuel → decVal (natToCharsAux fuel n) = n := by
  intro fuel
  induction fuel with
  | zero => intro n hn; omega
  | succ fuel ih =>
    intro n hn
    by_cases h10 : n < 10
    · rw [natToCharsAux, if_pos h10]
      simp [decVal, digitVal_digitChar n h10]
    · rw [natToCharsAux, if_neg h10, decVal_append_digit,
        ih (n / 10) (by omega), digitVal_digitChar (n % 10) (by omega)]
      omega

theorem natToCharsAux_ne_nil (fuel n : Nat) : natToCharsAux (fuel + 1) n ≠ [] := by
  by_cases h10 : n < 10 <;> simp [natToCharsAux, h10]

theorem natToCharsAux_head_ne_zero :
    ∀ fuel n, n < fuel → n ≠ 0 → (natToCharsAux fuel n).head? ≠ some '0' := by
  intro fuel
  induction fuel with
  | zero => intro n hn; omega
  | succ fuel ih =>
    intro n hn hn0
    by_cases h10 : n < 10
    · rw [natToCharsAux, if_pos h10]
      simp only [List.head?_cons, ne_eq, Option.some.injEq]
      exact digitChar_ne_zeroChar n h10 hn0
    · rw [natToCharsAux, if_neg h10]
      have hne : natToCharsAux fuel (n / 10) ≠ [] := by
        cases fuel with
        | zero => omega
        | succ f => exact natToCharsAux_ne_nil f (n / 10)
      obtain ⟨c0, rest, hrest⟩ := List.exists_cons_of_ne_nil hne
      have hhead := ih (n / 10) (by omega) (by omega)
      rw [hrest] at hhead ⊢
      simpa using hhead

theorem natToChars_all_digit (n : Nat) : ∀ c ∈ natToChars n, c.isDigit = true :=
  natToCharsAux_all_digit (n + 1) n (Nat.lt_succ_self n)

theorem decVal_natToChars (n : Nat) : decVal (natToChars n) = n :=
  decVal_natToCharsAux (n + 1) n (Nat.lt_succ_self n)

theorem natToChars_ne_nil (n : Nat) : natToChars n ≠ [] :=
  natToCharsAux_ne_nil n n

theorem natToChars_head_ne_zero (n : Nat) (h : n ≠ 0) :
    (natToChars n).head? ≠ some '0' :=
  natToCharsAux_head_ne_zero (n + 1) n (Nat.lt_succ_self n) h

theorem natToChars_zero : natToChars 0 = ['0'] := rfl

theorem natToChars_ne_dash (n : Nat) : ∀ c ∈ natToChars n, c ≠ '-' :=
  fun c hc => isDigit_ne_dash (natToChars_all_digit n c hc)

theorem moreDigits_all_digit :
    ∀ (l : Str) (acc : Nat), (∀ c ∈ l, c.isDigit = true) →
      moreDigits acc l = some (l.foldl (fun a c => a * 10 + digitVal c) acc) := by
  intro l
  induction l with
  | nil => intro acc _; rfl
  | cons c cs ih =>
    intro acc h
    have hc : c.isDigit = true := h c (List.mem_cons_self c cs)
    cases cs with
    | nil =>
      rw [moreDigits.eq_2, if_neg (isDigit_ne_underscore hc), if_pos hc]
      rfl
    | cons c2 cs2 =>
      rw [moreDigits.eq_3, if_neg (isDigit_ne_underscore hc), if_pos hc,
        ih _ (fun x hx => h x (List.mem_cons_of_mem c hx))]
      rfl

theorem digitsValue_all_digit (l : Str) (hne : l ≠ []) (h : ∀ c ∈ l, c.isDigit = true) :
    digitsValue l = some (decVal l) := by
  cases l with
  | nil => exact absurd rfl hne
  | cons c cs =>
    have hc := h c (List.mem_cons_self c cs)
    rw [digitsValue, if_pos hc,
      moreDigits_all_digit cs (digitVal c) (fun x hx => h x (List.mem_cons_of_mem c hx))]
    simp [decVal]

theorem dropWhile_eq_self {p : Char → Bool} {l : Str} (h : ∀ c ∈ l, p c = false) :
    l.dropWhile p = l := by
  cases l with
  | nil => rfl
  | cons c cs =>
    rw [List.dropWhile_cons, h c (List.mem_cons_self c cs)]
    simp

theorem stripWS_eq_self {l : Str} (h : ∀ c ∈ l, isPySpace c = false) : stripWS l = l := by
  unfold stripWS
  rw [dropWhile_eq_self h,
    dropWhile_eq_self (fun c hc => h c (List.mem_reverse.mp hc)),
    List.reverse_reverse]

theorem pyInt_eq_of_strip (l : Str) (c : Char) (cs : Str) (h : stripWS l = c :: cs) :
    pyInt l =
      if c = '-' then (digitsValue cs).map (fun n => -(n : Int))
      else if c = '+' then (digitsValue cs).map (fun n => (n : Int))
      else (digitsValue (c :: cs)).map (fun n => (n : Int)) := by
  unfold pyInt
  rw [h]

theorem pyInt_digits {l : Str} (hne : l ≠ []) (h : ∀ c ∈ l, c.isDigit = true) :
    pyInt l = some ((decVal l : Nat) : Int) := by
  obtain ⟨c, cs, rfl⟩ := List.exists_cons_of_ne_nil hne
  have hc := h c (List.mem_cons_self c cs)
  have hsw : stripWS (c :: cs) = c :: cs :=
    stripWS_eq_self (fun x hx => isDigit_not_space (h x hx))
  rw [pyInt_eq_of_strip _ _ _ hsw, if_neg (isDigit_ne_dash hc),
    if_neg (isDigit_ne_plus hc), digitsValue_all_digit _ (by simp) h]
  rfl

theorem pyInt_natToChars (n : Nat) : pyInt (natToChars n) = some (n : Int) := by
  rw [pyInt_digits (natToChars_ne_nil n) (natToChars_all_digit n), decVal_natToChars]

theorem pyInt_dash_natToChars (n : Nat) :
    pyInt ('-' :: natToChars n) = some (-(n : Int)) := by
  have hsw : stripWS ('-' :: natToChars n) = '-' :: natToChars n := by
    apply stripWS_eq_self
    intro c hc
    rcases List.mem_cons.mp hc with rfl | hc
    · decide
    · exact isDigit_not_space (natToChars_all_digit n c hc)
  rw [pyInt_eq_of_strip _ _ _ hsw, if_pos rfl,
    digitsValue_all_digit _ (natToChars_ne_nil n) (natToChars_all_digit n),
    decVal_natToChars]
  rfl

theorem intToChars_nonneg {z : Int} (h : ¬ z < 0) : intToChars z = natToChars z.toNat := by
  unfold intToChars
  rw [if_neg h]

theorem intToChars_neg {z : Int} (h : z < 0) : intToChars z = '-' :: natToChars z.natAbs := by
  unfold intToChars
  rw [if_pos h]

theorem pyInt_intToChars (z : Int) : pyInt (intToChars z) = some z := by
  by_cases h : z < 0
  · rw [intToChars_neg h, pyInt_dash_natToChars]
    congr 1
    omega
  · rw [intToChars_nonneg h, pyInt_natToChars]
    congr 1
    omega

/-! ### Facts about `split("-")` and key round-tripping -/

theorem splitOnDash_cons (c : Char) (cs p : Str) (ps : List Str)
    (h : splitOnDash cs = p :: ps) :
    splitOnDash (c :: cs) = if c = '-' then [] :: p :: ps else (c :: p) :: ps := by
  unfold splitOnDash
  rw [h]

theorem splitOnDash_ne_nil : ∀ l : Str, splitOnDash l ≠ [] := by
  intro l
  induction l with
  | nil => simp [splitOnDash]
  | cons c cs ih =>
    obtain ⟨p, ps, h⟩ := List.exists_cons_of_ne_nil ih
    rw [splitOnDash_cons c cs p ps h]
    by_cases hc : c = '-' <;> simp [hc]

theorem splitOnDash_dash_cons (l : Str) : splitOnDash ('-' :: l) = [] :: splitOnDash l := by
  obtain ⟨p, ps, h⟩ := List.exists_cons_of_ne_nil (splitOnDash_ne_nil l)
  rw [splitOnDash_cons '-' l p ps h, if_pos rfl, h]

theorem splitOnDash_no_dash : ∀ l : Str, (∀ c ∈ l, c ≠ '-') → splitOnDash l = [l] := by
  intro l
  induction l with
  | nil => intro _; rfl
  | cons c cs ih =>
    intro h
    have hcs := ih (fun x hx => h x (List.mem_cons_of_mem c hx))
    rw [splitOnDash_cons c cs cs [] hcs, if_neg (h c (List.mem_cons_self c cs))]

theorem splitOnDash_append (a b : Str) (ha : ∀ c ∈ a, c ≠ '-') :
    splitOnDash (a ++ '-' :: b) = a :: splitOnDash b := by
  induction a with
  | nil =>
    rw [List.nil_append, splitOnDash_dash_cons]
  | cons c a' ih =>
    have h' := ih (fun x hx => ha x (List.mem_cons_of_mem c hx))
    rw [List.cons_append, splitOnDash_cons c (a' ++ '-' :: b) a' (splitOnDash b) h',
      if_neg (ha c (List.mem_cons_self c a'))]

theorem splitOnDash_formatKey_nonneg (y m d : Int)
    (hy : ¬ y < 0) (hm : ¬ m < 0) (hd : ¬ d < 0) :
    splitOnDash (formatKey y m d)
      = [natToChars y.toNat, natToChars m.toNat, natToChars d.toNat] := by
  unfold formatKey
  rw [intToChars_nonneg hy, intToChars_nonneg hm, intToChars_nonneg hd,
    splitOnDash_append _ _ (natToChars_ne_dash _),
    splitOnDash_append _ _ (natToChars_ne_dash _),
    splitOnDash_no_dash _ (natToChars_ne_dash _)]

theorem split_len_int_append (z : Int) (R : Str) :
    (splitOnDash (intToChars z ++ '-' :: R)).length
      = (if z < 0 then 1 else 0) + 1 + (splitOnDash R).length := by
  by_cases h : z < 0
  · rw [if_pos h, intToChars_neg h, List.cons_append, splitOnDash_dash_cons,
      splitOnDash_append _ _ (natToChars_ne_dash _)]
    simp only [List.length_cons]
    omega
  · rw [if_neg h, intToChars_nonneg h, splitOnDash_append _ _ (natToChars_ne_dash _)]
    simp only [List.length_cons]
    omega

theorem split_len_int (z : Int) :
    (splitOnDash (intToChars z)).length = (if z < 0 then 1 else 0) + 1 := by
  by_cases h : z < 0
  · rw [if_pos h, intToChars_neg h, splitOnDash_dash_cons,
      splitOnDash_no_dash _ (natToChars_ne_dash _)]
    rfl
  · rw [if_neg h, intToChars_nonneg h, splitOnDash_no_dash _ (natToChars_ne_dash _)]
    rfl

theorem splitOnDash_formatKey_length (y m d : Int) :
    (splitOnDash (formatKey y m d)).length
      = (if y < 0 then 1 else 0) + (if m < 0 then 1 else 0) + (if d < 0 then 1 else 0) + 3 := by
  unfold formatKey
  rw [split_len_int_append, split_len_int_append, split_len_int]
  omega

theorem parseKey_cons3 (s a b c : Str) (h : splitOnDash s = [a, b, c]) :
    parseKey s =
      match pyInt a, pyInt b, pyInt c with
      | some y, some m, some d => some (y, m, d)
      | _, _, _ => none := by
  unfold parseKey
  rw [h]

theorem parseKey_values (s a b c : Str) (y m d : Int) (h : splitOnDash s = [a, b, c])
    (ha : pyInt a = some y) (hb : pyInt b = some m) (hc : pyInt c = some d) :
    parseKey s = some (y, m, d) := by
  rw [parseKey_cons3 s a b c h, ha, hb, hc]

theorem parseKey_none_of_len (s : Str) (h : (splitOnDash s).length ≠ 3) :
    parseKey s = none := by
  unfold parseKey
  rcases hs : splitOnDash s with _ | ⟨a, _ | ⟨b, _ | ⟨c, _ | ⟨e, rest⟩⟩⟩⟩
  · rfl
  · rfl
  · rfl
  · exact absurd (by rw [hs]; rfl : (splitOnDash s).length = 3) h
  · rfl

theorem parseKey_formatKey_nonneg (y m d : Int)
    (hy : ¬ y < 0) (hm : ¬ m < 0) (hd : ¬ d < 0) :
    parseKey (formatKey y m d) = some (y, m, d) := by
  have hy' : ((y.toNat : Nat) : Int) = y := by omega
  have hm' : ((m.toNat : Nat) : Int) = m := by omega
  have hd' : ((d.toNat : Nat) : Int) = d := by omega
  refine parseKey_values _ _ _ _ y m d (splitOnDash_formatKey_nonneg y m d hy hm hd) ?_ ?_ ?_
  · rw [pyInt_natToChars, hy']
  · rw [pyInt_natToChars, hm']
  · rw [pyInt_natToChars, hd']

theorem parseKey_formatKey_inj (y m d : Int) (t : DateKey)
    (h : parseKey (formatKey y m d) = some t) : t = (y, m, d) := by
  have hlen := splitOnDash_formatKey_length y m d
  have hy : ¬ y < 0 := by
    intro hy
    rw [parseKey_none_of_len _ (by rw [hlen, if_pos hy]; omega)] at h
    exact Option.noConfusion h
  have hm : ¬ m < 0 := by
    intro hm
    rw [parseKey_none_of_len _ (by rw [hlen, if_pos hm]; omega)] at h
    exact Option.noConfusion h
  have hd : ¬ d < 0 := by
    intro hd
    rw [parseKey_none_of_len _ (by rw [hlen, if_pos hd]; omega)] at h
    exact Option.noConfusion h
  rw [parseKey_formatKey_nonneg y m d hy hm hd] at h
  exact (Option.some.inj h).symm

/-! ### Facts about the dictionary operations and the load loop -/

theorem lookupEv_dictInsert_self : ∀ (ev : Events) (k : DateKey) (v : Json),
    lookupEv (dictInsert ev k v) k = some v := by
  intro ev k v
  induction ev with
  | nil => simp [dictInsert, lookupEv]
  | cons p rest ih =>
    obtain ⟨k0, v0⟩ := p
    by_cases h : k0 = k
    · subst h
      simp [dictInsert, lookupEv]
    · simp [dictInsert, lookupEv, h, ih]

theorem lookupEv_dictInsert_ne (ev : Events) (k d : DateKey) (v : Json) (h : d ≠ k) :
    lookupEv (dictInsert ev k v) d = lookupEv ev d := by
  induction ev with
  | nil => simp [dictInsert, lookupEv, Ne.symm h]
  | cons p rest ih =>
    obtain ⟨k0, v0⟩ := p
    by_cases h0 : k0 = k
    · subst h0
      simp [dictInsert, lookupEv, Ne.symm h]
    · by_cases h1 : k0 = d
      · subst h1
        simp [dictInsert, lookupEv, h0]
      · simp [dictInsert, lookupEv, h0, h1, ih]

theorem dictInsert_append (ev : Events) (k : DateKey) (v : Json)
    (h : lookupEv ev k = none) : dictInsert ev k v = ev ++ [(k, v)] := by
  induction ev with
  | nil => rfl
  | cons p rest ih =>
    obtain ⟨k0, v0⟩ := p
    by_cases h0 : k0 = k
    · rw [lookupEv, if_pos h0] at h
      exact Option.noConfusion h
    · rw [lookupEv, if_neg h0] at h
      simp [dictInsert, h0, ih h]

theorem lookupEv_append_none (a b : Events) (d : DateKey) (h : lookupEv a d = none) :
    lookupEv (a ++ b) d = lookupEv b d := by
  induction a with
  | nil => rfl
  | cons p rest ih =>
    obtain ⟨k0, v0⟩ := p
    by_cases h0 : k0 = d
    · rw [lookupEv, if_pos h0] at h
      exact Option.noConfusion h
    · rw [lookupEv, if_neg h0] at h
      simp [lookupEv, h0, ih h]

theorem mem_dictInsert (ev : Events) (k : DateKey) (v : Json) (p : DateKey × Json)
    (h : p ∈ dictInsert ev k v) : p ∈ ev ∨ (p.1 = k ∧ p.2 = v) := by
  induction ev with
  | nil =>
    simp [dictInsert] at h
    subst h
    right
    exact ⟨rfl, rfl⟩
  | cons q rest ih =>
    obtain ⟨k0, v0⟩ := q
    by_cases h0 : k0 = k
    · subst h0
      rw [show dictInsert ((k0, v0) :: rest) k0 v = (k0, v) :: rest from by
        simp [dictInsert]] at h
      rcases List.mem_cons.mp h with rfl | h
      · right
        exact ⟨rfl, rfl⟩
      · left
        exact List.mem_cons_of_mem _ h
    · rw [show dictInsert ((k0, v0) :: rest) k v = (k0, v0) :: dictInsert rest k v from by
        simp [dictInsert, h0]] at h
      rcases List.mem_cons.mp h with rfl | h
      · left
        exact List.mem_cons_self _ _
      · rcases ih h with h | h
        · left
          exact List.mem_cons_of_mem _ h
        · right
          exact h

theorem dictInsert_pairwise (ev : Events) (k : DateKey) (v : Json)
    (h : ev.Pairwise (fun p q => p.1 ≠ q.1)) :
    (dictInsert ev k v).Pairwise (fun p q => p.1 ≠ q.1) := by
  induction ev with
  | nil => simp [dictInsert]
  | cons q rest ih =>
    obtain ⟨k0, v0⟩ := q
    rcases List.pairwise_cons.mp h with ⟨h0, hrest⟩
    by_cases hk : k0 = k
    · subst hk
      rw [show dictInsert ((k0, v0) :: rest) k0 v = (k0, v) :: rest from by
        simp [dictInsert]]
      exact List.pairwise_cons.mpr ⟨fun q hq => h0 q hq, hrest⟩
    · rw [show dictInsert ((k0, v0) :: rest) k v = (k0, v0) :: dictInsert rest k v from by
        simp [dictInsert, hk]]
      refine List.pairwise_cons.mpr ⟨?_, ih hrest⟩
      intro q hq
      rcases mem_dictInsert rest k v q hq with hq | ⟨hq1, _⟩
      · exact h0 q hq
      · rw [hq1]
        exact hk

theorem normalizeValue_not_str {v : Json} (h : isJStr v = false) : normalizeValue v = v := by
  cases v with
  | jstr s => exact absurd h (by simp [isJStr])
  | jnull => rfl
  | jbool b => rfl
  | jnum n => rfl
  | jarr l => rfl
  | jobj l => rfl

theorem loadEntries_frame : ∀ (l : List (Str × Json)) (ev : Events) (d : DateKey),
    (∀ kv ∈ l, ¬ parseKey kv.1 = some d) →
    lookupEv (loadEntries ev l) d = lookupEv ev d := by
  intro l
  induction l with
  | nil => intro ev d _; rfl
  | cons kv rest ih =>
    intro ev d h
    obtain ⟨k, v⟩ := kv
    rcases hp : parseKey k with _ | dk
    · rw [show loadEntries ev ((k, v) :: rest) = ev from by simp [loadEntries, hp]]
    · have hne : d ≠ dk := by
        intro he
        exact h (k, v) (List.mem_cons_self _ _) (by rw [hp, he])
      rw [show loadEntries ev ((k, v) :: rest)
            = loadEntries (dictInsert ev dk (normalizeValue v)) rest from by
          simp [loadEntries, hp],
        ih _ d (fun kv hkv => h kv (List.mem_cons_of_mem _ hkv)),
        lookupEv_dictInsert_ne _ _ _ _ hne]

theorem loadEntries_origin : ∀ (l : List (Str × Json)) (ev : Events) (d : DateKey) (r : Json),
    lookupEv (loadEntries ev l) d = some r →
    (∃ v, lookupEv ev d = some v) ∨ ∃ kv ∈ l, parseKey kv.1 = some d := by
  intro l
  induction l with
  | nil =>
    intro ev d r h
    left
    exact ⟨r, h⟩
  | cons kv rest ih =>
    intro ev d r h
    obtain ⟨k, v⟩ := kv
    rcases hp : parseKey k with _ | dk
    · rw [show loadEntries ev ((k, v) :: rest) = ev from by simp [loadEntries, hp]] at h
      left
      exact ⟨r, h⟩
    · rw [show loadEntries ev ((k, v) :: rest)
            = loadEntries (dictInsert ev dk (normalizeValue v)) rest from by
          simp [loadEntries, hp]] at h
      rcases ih _ d r h with ⟨v', hv⟩ | ⟨kv', hkv', hpk⟩
      · by_cases hdk : d = dk
        · right
          exact ⟨(k, v), List.mem_cons_self _ _, by rw [hp, hdk]⟩
        · left
          rw [lookupEv_dictInsert_ne _ _ _ _ hdk] at hv
          exact ⟨v', hv⟩
      · right
        exact ⟨kv', List.mem_cons_of_mem _ hkv', hpk⟩

theorem loadEntries_saveEntries : ∀ (es ev : Events),
    (∀ p ∈ es, ¬ p.1.1 < 0 ∧ ¬ p.1.2.1 < 0 ∧ ¬ p.1.2.2 < 0) →
    (∀ p ∈ es, isJStr p.2 = false) →
    (∀ p ∈ es, lookupEv ev p.1 = none) →
    es.Pairwise (fun p q => p.1 ≠ q.1) →
    loadEntries ev (saveEntries es) = ev ++ es := by
  intro es
  induction es with
  | nil =>
    intro ev _ _ _ _
    simp [saveEntries, loadEntries]
  | cons p rest ih =>
    intro ev hnn hstr hlk hpw
    obtain ⟨k, v⟩ := p
    obtain ⟨hy, hm, hd⟩ := hnn (k, v) (List.mem_cons_self _ _)
    have hkey : parseKey (formatKey k.1 k.2.1 k.2.2) = some k :=
      parseKey_formatKey_nonneg k.1 k.2.1 k.2.2 hy hm hd
    have hnm : normalizeValue v = v :=
      normalizeValue_not_str (hstr (k, v) (List.mem_cons_self _ _))
    have hins : dictInsert ev k v = ev ++ [(k, v)] :=
      dictInsert_append ev k v (hlk (k, v) (List.mem_cons_self _ _))
    rcases List.pairwise_cons.mp hpw with ⟨hp0, hprest⟩
    have step : loadEntries ev (saveEntries ((k, v) :: rest))
        = loadEntries (ev ++ [(k, v)]) (saveEntries rest) := by
      simp [saveEntries, loadEntries, encodeEntry, hkey, hnm, hins]
    rw [step, ih (ev ++ [(k, v)])
      (fun q hq => hnn q (List.mem_cons_of_mem _ hq))
      (fun q hq => hstr q (List.mem_cons_of_mem _ hq))
      (fun q hq => by
        rw [lookupEv_append_none _ _ _ (hlk q (List.mem_cons_of_mem _ hq))]
        have : k ≠ q.1 := hp0 q hq
        simp [lookupEv, this])
      hprest]
    simp

/-! ### Facts about sequences of `save_and_close` calls -/

theorem opsApply_mem : ∀ (ops : List (DateKey × Str × Str)) (ev : Events) (p : DateKey × Json),
    p ∈ opsApply ev ops →
    p ∈ ev ∨ ((∃ o ∈ ops, o.1 = p.1) ∧ ∃ c n, p.2 = eventObj c n) := by
  intro ops
  induction ops with
  | nil =>
    intro ev p h
    left
    exact h
  | cons o rest ih =>
    intro ev p h
    obtain ⟨k, c, n⟩ := o
    rw [show opsApply ev ((k, c, n) :: rest)
          = opsApply (dictInsert ev k (eventObj c n)) rest from rfl] at h
    rcases ih _ p h with h | ⟨⟨o', ho', hoo⟩, hv⟩
    · rcases mem_dictInsert _ _ _ _ h with h | ⟨h1, h2⟩
      · left
        exact h
      · right
        exact ⟨⟨(k, c, n), List.mem_cons_self _ _, h1.symm⟩, c, n, h2⟩
    · right
      exact ⟨⟨o', List.mem_cons_of_mem _ ho', hoo⟩, hv⟩

theorem opsApply_pairwise : ∀ (ops : List (DateKey × Str × Str)) (ev : Events),
    ev.Pairwise (fun p q => p.1 ≠ q.1) →
    (opsApply ev ops).Pairwise (fun p q => p.1 ≠ q.1) := by
  intro ops
  induction ops with
  | nil => intro ev h; exact h
  | cons o rest ih =>
    intro ev h
    obtain ⟨k, c, n⟩ := o
    exact ih _ (dictInsert_pairwise ev k (eventObj c n) h)

theorem applyOps_fst : ∀ (ops : List (DateKey × Str × Str)) (ev : Events) (f : File),
    (applyOps (ev, f) ops).1 = opsApply ev ops := by
  intro ops
  induction ops with
  | nil => intro ev f; rfl
  | cons o rest ih =>
    intro ev f
    obtain ⟨k, c, n⟩ := o
    exact ih _ _

theorem applyOps_snd : ∀ (ops : List (DateKey × Str × Str)) (ev : Events) (f : File),
    ops ≠ [] →
    (applyOps (ev, f) ops).2 = File.content (saveData (applyOps (ev, f) ops).1) := by
  intro ops
  induction ops with
  | nil =>
    intro ev f h
    exact absurd rfl h
  | cons o rest ih =>
    intro ev f _
    obtain ⟨k, c, n⟩ := o
    cases rest with
    | nil => rfl
    | cons o2 rest2 => exact ih _ _ (by simp)

theorem lookup_of_forall_ne (l : Events) (d : DateKey) (h : ∀ p ∈ l, p.1 ≠ d) :
    lookupEv l d = none := by
  induction l with
  | nil => rfl
  | cons p rest ih =>
    obtain ⟨k, v⟩ := p
    rw [lookupEv, if_neg (h (k, v) (List.mem_cons_self _ _))]
    exact ih (fun q hq => h q (List.mem_cons_of_mem _ hq))

theorem clear_month_lookup_other (st : Events) (y m : Int) (d : DateKey)
    (hd : ¬ (d.1 = y ∧ d.2.1 = m)) :
    lookupEv (clear_month st y m) d = lookupEv st d := by
  induction st with
  | nil => rfl
  | cons p rest ih =>
    obtain ⟨k, v⟩ := p
    by_cases hk : k = d
    · subst hk
      have hkeep : decide (¬ (k.1 = y ∧ k.2.1 = m)) = true := decide_eq_true hd
      rw [show clear_month ((k, v) :: rest) y m = (k, v) :: clear_month rest y m from by
          simp only [clear_month, List.filter_cons]
          rw [hkeep]
          simp,
        lookupEv, if_pos rfl, lookupEv, if_pos rfl]
    · by_cases hmatch : k.1 = y ∧ k.2.1 = m
      · have hdrop : decide (¬ (k.1 = y ∧ k.2.1 = m)) = false := by
          simp [hmatch]
        rw [show clear_month ((k, v) :: rest) y m = clear_month rest y m from by
            simp only [clear_month, List.filter_cons]
            rw [hdrop]
            simp,
          ih, lookupEv, if_neg hk]
      · have hkeep : decide (¬ (k.1 = y ∧ k.2.1 = m)) = true := decide_eq_true hmatch
        rw [show clear_month ((k, v) :: rest) y m = (k, v) :: clear_month rest y m from by
            simp only [clear_month, List.filter_cons]
            rw [hkeep]
            simp,
          lookupEv, if_neg hk, lookupEv, if_neg hk, ih]

/-! ### Claim theorems -/

/-- C3: for every persisted entry whose value is a bare string `s` (and whose
key parses to a date key `dk`), `_load_events` accepts it and a subsequent
`get` for `dk` returns the record with `choice` `s` and empty `note`. -/
theorem C3_legacy_upgrade (k s : Str) (dk : DateKey) (h : parseKey k = some dk) :
    lookupEv (load_events [] (File.content (Json.jobj [(k, Json.jstr s)]))).1 dk
      = some (eventObj s []) := by
  show lookupEv (loadEntries [] [(k, Json.jstr s)]) dk = some (eventObj s [])
  rw [show loadEntries [] [(k, Json.jstr s)] = [(dk, eventObj s [])] from by
    simp [loadEntries, h, normalizeValue, dictInsert]]
  simp [lookupEv]

/-- C3 witness: the single-entry file mapping `"2024-3-7"` to the bare string
`"X"` loads as the record with `choice` `"X"` and empty `note`. -/
theorem C3_legacy_upgrade_witness :
    parseKey "2024-3-7".toList = some ((2024 : Int), 3, 7)
    ∧ lookupEv (load_events [] (File.content (Json.jobj
        [("2024-3-7".toList, Json.jstr "X".toList)]))).1 ((2024 : Int), 3, 7)
        = some (eventObj "X".toList []) :=
  ⟨by decide, C3_legacy_upgrade _ _ _ (by decide)⟩

/-- C5: on a failed write, `_save_events` swallows the exception, leaves the
backing file as it was, and leaves the in-memory map unchanged; the map is
never touched by a save at all. -/
theorem C5_save_failure_contained (st : Events) (f : File) :
    save_events st f false = (st, f, false) ∧ (save_events st f true).1 = st :=
  ⟨rfl, rfl⟩

/-- C6: a missing backing file is not an error: `_load_events` returns
without raising and without touching the store, so the freshly constructed
empty store stays empty. -/
theorem C6_missing_file (ev : Events) :
    load_events ev File.absent = (ev, false) ∧ load_events [] File.absent = ([], false) :=
  ⟨rfl, rfl⟩

/-- C9: during `_load_events`, only bare-string values are normalized; every
other parsed value is inserted into the map unchanged, so `get` can return a
value that is not a two-string-field record. -/
theorem C9_nonrecord_verbatim (k : Str) (v : Json) (dk : DateKey)
    (h1 : parseKey k = some dk) (h2 : isJStr v = false) :
    lookupEv (load_events [] (File.content (Json.jobj [(k, v)]))).1 dk = some v := by
  show lookupEv (loadEntries [] [(k, v)]) dk = some v
  rw [show loadEntries [] [(k, v)] = [(dk, v)] from by
    simp [loadEntries, h1, normalizeValue_not_str h2, dictInsert]]
  simp [lookupEv]

/-- C9 witness: a number value `42` under key `"9-9-9"` is loaded verbatim. -/
theorem C9_nonrecord_verbatim_witness :
    parseKey "9-9-9".toList = some ((9 : Int), 9, 9)
    ∧ isJStr (Json.jnum 42) = false
    ∧ lookupEv (load_events [] (File.content (Json.jobj
        [("9-9-9".toList, Json.jnum 42)]))).1 ((9 : Int), 9, 9)
        = some (Json.jnum 42) :=
  ⟨by decide, rfl, C9_nonrecord_verbatim _ _ _ (by decide) rfl⟩

/-- C10: `_load_events` merges into the current map and never removes an
entry: a date key to which no entry of the backing file parses keeps exactly
the record it had before the load. -/
theorem C10_load_merges (ev : Events) (f : File) (d : DateKey)
    (h : fileMentionsB f d = false) :
    lookupEv (load_events ev f).1 d = lookupEv ev d := by
  cases f with
  | absent => rfl
  | garbage => rfl
  | content j =>
    cases j with
    | jobj kvs =>
      show lookupEv (loadEntries ev kvs) d = lookupEv ev d
      apply loadEntries_frame
      intro kv hkv
      simp only [fileMentionsB, List.any_eq_true, not_exists] at h
      intro hp
      rcases List.any_eq_false.mp h kv hkv with hfalse
      rw [hp] at hfalse
      simp at hfalse
    | jnull => rfl
    | jbool b => rfl
    | jnum n => rfl
    | jstr s => rfl
    | jarr l => rfl

/-- C10 witness: an entry at `(1, 2, 3)` survives loading a file whose only
entry is for `(9, 9, 9)`. -/
theorem C10_load_merges_witness :
    fileMentionsB (File.content (Json.jobj [("9-9-9".toList, Json.jstr "B".toList)]))
        ((1 : Int), 2, 3) = false
    ∧ lookupEv (load_events [(((1 : Int), (2 : Int), (3 : Int)), eventObj "A".toList [])]
        (File.content (Json.jobj [("9-9-9".toList, Json.jstr "B".toList)]))).1 ((1 : Int), 2, 3)
        = lookupEv [(((1 : Int), (2 : Int), (3 : Int)), eventObj "A".toList [])] ((1 : Int), 2, 3) :=
  ⟨by decide, C10_load_merges _ _ _ (by decide)⟩

/-- C2 counterexample: a file that is not a well-formed serialized store
(its second entry has the unparsable key `"bad"`) does not leave the store
empty — the entry parsed before the malformed one is kept. -/
theorem C2_malformed_counterexample :
    parseKey "bad".toList = none
    ∧ (load_events [] (File.content (Json.jobj
        [("1-2-3".toList, Json.jstr "A".toList), ("bad".toList, Json.jstr "B".toList)]))).1
        = [(((1 : Int), (2 : Int), (3 : Int)), eventObj "A".toList [])]
    ∧ (load_events [] (File.content (Json.jobj
        [("1-2-3".toList, Json.jstr "A".toList), ("bad".toList, Json.jstr "B".toList)]))).1
        ≠ [] := by
  refine ⟨rfl, rfl, ?_⟩
  intro h
  rw [show (load_events [] (File.content (Json.jobj
      [("1-2-3".toList, Json.jstr "A".toList), ("bad".toList, Json.jstr "B".toList)]))).1
      = [(((1 : Int), (2 : Int), (3 : Int)), eventObj "A".toList [])] from rfl] at h
  exact List.noConfusion h

/-- C2 (amended): `_load_events` never raises; when the failure happens
before any entry is inserted — unparsable text, a top-level value that is not
an object, or a first entry whose key does not parse — the store is left
unchanged, hence empty for a fresh store.  (When an entry fails to parse
later, entries already inserted are kept, as the counterexample shows.) -/
theorem C2_malformed_amended (ev : Events) (f : File) (j : Json) (k : Str) (v : Json)
    (rest : List (Str × Json)) :
    (load_events ev f).2 = false
    ∧ load_events ev File.garbage = (ev, false)
    ∧ (isJObj j = false → load_events ev (File.content j) = (ev, false))
    ∧ (parseKey k = none →
        load_events ev (File.content (Json.jobj ((k, v) :: rest))) = (ev, false)) := by
  refine ⟨?_, rfl, ?_, ?_⟩
  · cases f with
    | absent => rfl
    | garbage => rfl
    | content j2 => cases j2 <;> rfl
  · intro h
    cases j <;> first | rfl | (exact absurd h (by simp [isJObj]))
  · intro h
    show (loadEntries ev ((k, v) :: rest), false) = (ev, false)
    rw [show loadEntries ev ((k, v) :: rest) = ev from by simp [loadEntries, h]]

/-- C2 witness: a numeric top-level value and a file whose first key is
`"oops"` both leave a fresh store empty, and no load raises. -/
theorem C2_malformed_witness :
    isJObj (Json.jnum 7) = false
    ∧ parseKey "oops".toList = none
    ∧ (load_events [] (File.content (Json.jnum 7))).2 = false
    ∧ load_events [] File.garbage = ([], false)
    ∧ load_events [] (File.content (Json.jnum 7)) = ([], false)
    ∧ load_events [] (File.content (Json.jobj [("oops".toList, Json.jstr "B".toList)]))
        = ([], false) := by
  have h := C2_malformed_amended [] (File.content (Json.jnum 7)) (Json.jnum 7)
    "oops".toList (Json.jstr "B".toList) []
  exact ⟨by decide, by decide, h.1, h.2.1, h.2.2.1 (by decide), h.2.2.2 (by decide)⟩

/-- C1 counterexample: for the date key `(-1, 2, 3)` — an arbitrary integer
triple — a `save_and_close`, the save it performs, and a fresh load do not
round-trip: the record is stored in memory but `get` after reload returns
nothing, because the serialized key `"-1-2-3"` splits into four pieces. -/
theorem C1_roundtrip_counterexample :
    lookupEv (applyOps ([], File.absent)
        [(((-1 : Int), (2 : Int), (3 : Int)), "X".toList, [])]).1 ((-1 : Int), 2, 3)
      = some (eventObj "X".toList [])
    ∧ lookupEv (load_events [] (applyOps ([], File.absent)
        [(((-1 : Int), (2 : Int), (3 : Int)), "X".toList, [])]).2).1 ((-1 : Int), 2, 3)
      = none :=
  ⟨rfl, rfl⟩

/-- C1 (amended): for every sequence of `save_and_close` calls whose date
keys have nonnegative components (choice and note arbitrary, including empty
and non-ASCII), a fresh load of the written file returns, for every date
key, exactly what the in-memory store holds. -/
theorem C1_roundtrip_amended (ops : List (DateKey × Str × Str)) (d : DateKey)
    (hnn : ∀ o ∈ ops, ¬ o.1.1 < 0 ∧ ¬ o.1.2.1 < 0 ∧ ¬ o.1.2.2 < 0) :
    lookupEv (load_events [] (applyOps ([], File.absent) ops).2).1 d
      = lookupEv (applyOps ([], File.absent) ops).1 d := by
  cases ops with
  | nil => rfl
  | cons o rest =>
    have hfst := applyOps_fst (o :: rest) [] File.absent
    have hsnd := applyOps_snd (o :: rest) [] File.absent (by simp)
    rw [hsnd, hfst]
    have hval : ∀ p ∈ opsApply [] (o :: rest), isJStr p.2 = false := by
      intro p hp
      rcases opsApply_mem (o :: rest) [] p hp with h | ⟨_, c, n, hv⟩
      · exact absurd h (List.not_mem_nil p)
      · rw [hv]
        rfl
    have hkeys : ∀ p ∈ opsApply [] (o :: rest),
        ¬ p.1.1 < 0 ∧ ¬ p.1.2.1 < 0 ∧ ¬ p.1.2.2 < 0 := by
      intro p hp
      rcases opsApply_mem (o :: rest) [] p hp with h | ⟨⟨o', ho', hoo⟩, _⟩
      · exact absurd h (List.not_mem_nil p)
      · have ho2 := hnn o' ho'
        rw [hoo] at ho2
        exact ho2
    have hpw : (opsApply [] (o :: rest)).Pairwise (fun p q => p.1 ≠ q.1) :=
      opsApply_pairwise _ [] List.Pairwise.nil
    have hload : loadEntries [] (saveEntries (opsApply [] (o :: rest)))
        = opsApply [] (o :: rest) := by
      rw [loadEntries_saveEntries _ [] hkeys hval (fun q _ => rfl) hpw]
      rfl
    rw [show load_events [] (File.content (saveData (opsApply [] (o :: rest))))
        = (loadEntries [] (saveEntries (opsApply [] (o :: rest))), false) from rfl]
    rw [hload]

/-- C1 witness: two edits, one with a non-ASCII note and one with empty
strings, round-trip through the written file. -/
theorem C1_roundtrip_witness :
    (∀ o ∈ ([(((2024 : Int), (3 : Int), (7 : Int)), "Turtle".toList, "café ✓".toList),
             (((0 : Int), (1 : Int), (2 : Int)), [], [])] : List (DateKey × Str × Str)),
        ¬ o.1.1 < 0 ∧ ¬ o.1.2.1 < 0 ∧ ¬ o.1.2.2 < 0)
    ∧ lookupEv (load_events [] (applyOps ([], File.absent)
        [(((2024 : Int), (3 : Int), (7 : Int)), "Turtle".toList, "café ✓".toList),
         (((0 : Int), (1 : Int), (2 : Int)), [], [])]).2).1 ((2024 : Int), 3, 7)
      = lookupEv (applyOps ([], File.absent)
        [(((2024 : Int), (3 : Int), (7 : Int)), "Turtle".toList, "café ✓".toList),
         (((0 : Int), (1 : Int), (2 : Int)), [], [])]).1 ((2024 : Int), 3, 7) :=
  ⟨by decide, C1_roundtrip_amended _ _ (by decide)⟩

/-- C7 counterexample: `(2023, -1, 5)` is an integer triple that is not a
valid real-world calendar date; `save_and_close` succeeds and stores it
as-is, but it does not round-trip through the written file, so the claim's
quantification over every invalid triple fails. -/
theorem C7_unknown_date_counterexample :
    lookupEv (save_and_close [] ((2023 : Int), -1, 5) "X".toList [] File.absent true).1
        ((2023 : Int), -1, 5)
      = some (eventObj "X".toList [])
    ∧ lookupEv (load_events []
        (save_and_close [] ((2023 : Int), -1, 5) "X".toList [] File.absent true).2.1).1
        ((2023 : Int), -1, 5)
      = none :=
  ⟨rfl, rfl⟩

/-- C7 (amended): for every integer triple with nonnegative components —
whether or not it is a valid real-world date, e.g. `(2023, 2, 30)` —
`save_and_close` stores the entry as-is and it round-trips through the
written file; the store checks no calendar validity anywhere. -/
theorem C7_unknown_date_amended (y m d : Int) (c n : Str)
    (hy : ¬ y < 0) (hm : ¬ m < 0) (hd : ¬ d < 0) :
    lookupEv (save_and_close [] (y, m, d) c n File.absent true).1 (y, m, d)
      = some (eventObj c n)
    ∧ lookupEv (load_events []
        (save_and_close [] (y, m, d) c n File.absent true).2.1).1 (y, m, d)
      = some (eventObj c n) := by
  constructor
  · show lookupEv [((y, m, d), eventObj c n)] (y, m, d) = some (eventObj c n)
    simp [lookupEv]
  · show lookupEv (loadEntries [] [(formatKey y m d, eventObj c n)]) (y, m, d)
      = some (eventObj c n)
    rw [show loadEntries [] [(formatKey y m d, eventObj c n)] = [((y, m, d), eventObj c n)] from by
      simp [loadEntries, parseKey_formatKey_nonneg y m d hy hm hd, normalizeValue,
        eventObj, dictInsert]]
    simp [lookupEv]

/-- C7 witness: the invalid real-world date `(2023, 2, 30)` is stored and
round-trips exactly like a valid date. -/
theorem C7_unknown_date_witness :
    (¬ (2023 : Int) < 0 ∧ ¬ (2 : Int) < 0 ∧ ¬ (30 : Int) < 0)
    ∧ lookupEv (save_and_close [] ((2023 : Int), 2, 30) "X".toList [] File.absent true).1
        ((2023 : Int), 2, 30)
      = some (eventObj "X".toList [])
    ∧ lookupEv (load_events []
        (save_and_close [] ((2023 : Int), 2, 30) "X".toList [] File.absent true).2.1).1
        ((2023 : Int), 2, 30)
      = some (eventObj "X".toList []) := by
  have h := C7_unknown_date_amended 2023 2 30 "X".toList [] (by decide) (by decide) (by decide)
  exact ⟨⟨by decide, by decide, by decide⟩, h.1, h.2⟩

/-- C4: `clear_month` for `(y, m)` removes exactly the entries with that year
and month — their keys look up to nothing afterwards, and still to nothing
after a save and a fresh load — while every entry with any other year or
month is left with the same record. -/
theorem C4_clear_month_scoped (st : Events) (y m : Int) (d : DateKey) :
    (d.1 = y ∧ d.2.1 = m →
        lookupEv (clear_month st y m) d = none
        ∧ lookupEv (load_events []
            (save_events (clear_month st y m) File.absent true).2.1).1 d = none)
    ∧ (¬ (d.1 = y ∧ d.2.1 = m) →
        lookupEv (clear_month st y m) d = lookupEv st d) := by
  constructor
  · intro hd
    constructor
    · apply lookup_of_forall_ne
      intro p hp he
      have hp2 : p ∈ List.filter
          (fun q : DateKey × Json => decide (¬ (q.1.1 = y ∧ q.1.2.1 = m))) st := hp
      have hpred := (List.mem_filter.mp hp2).2
      simp only [decide_eq_true_eq] at hpred
      exact hpred ⟨by rw [he]; exact hd.1, by rw [he]; exact hd.2⟩
    · rcases hlk : lookupEv (load_events []
          (save_events (clear_month st y m) File.absent true).2.1).1 d with _ | r
      · rfl
      · exfalso
        have hlk2 : lookupEv (loadEntries [] (saveEntries (clear_month st y m))) d
            = some r := hlk
        rcases loadEntries_origin _ _ _ _ hlk2 with ⟨v, hv⟩ | ⟨kv, hkv, hpk⟩
        · exact Option.noConfusion hv
        · obtain ⟨p, hpmem, hpe⟩ := List.mem_map.mp hkv
          rw [← hpe] at hpk
          have hd2 : d = (p.1.1, p.1.2.1, p.1.2.2) :=
            parseKey_formatKey_inj p.1.1 p.1.2.1 p.1.2.2 d hpk
          have hpmem2 : p ∈ List.filter
              (fun q : DateKey × Json => decide (¬ (q.1.1 = y ∧ q.1.2.1 = m))) st := hpmem
          have hpred := (List.mem_filter.mp hpmem2).2
          simp only [decide_eq_true_eq] at hpred
          refine hpred ⟨?_, ?_⟩
          · rw [show p.1.1 = d.1 from by rw [hd2]]
            exact hd.1
          · rw [show p.1.2.1 = d.2.1 from by rw [hd2]]
            exact hd.2
  · exact clear_month_lookup_other st y m d

/-- C4 witness: with entries in March 2024 and January 2025, clearing March
2024 removes the former (also after save and reload) and leaves the latter
unchanged. -/
theorem C4_clear_month_witness :
    (lookupEv (clear_month [(((2024 : Int), (3 : Int), (7 : Int)), eventObj "A".toList []),
        (((2025 : Int), (1 : Int), (1 : Int)), eventObj "B".toList [])] 2024 3)
        ((2024 : Int), 3, 7) = none
      ∧ lookupEv (load_events []
          (save_events (clear_month [(((2024 : Int), (3 : Int), (7 : Int)), eventObj "A".toList []),
            (((2025 : Int), (1 : Int), (1 : Int)), eventObj "B".toList [])] 2024 3)
            File.absent true).2.1).1 ((2024 : Int), 3, 7) = none)
    ∧ lookupEv (clear_month [(((2024 : Int), (3 : Int), (7 : Int)), eventObj "A".toList []),
        (((2025 : Int), (1 : Int), (1 : Int)), eventObj "B".toList [])] 2024 3)
        ((2025 : Int), 1, 1)
      = lookupEv [(((2024 : Int), (3 : Int), (7 : Int)), eventObj "A".toList []),
        (((2025 : Int), (1 : Int), (1 : Int)), eventObj "B".toList [])] ((2025 : Int), 1, 1) := by
  refine ⟨(C4_clear_month_scoped _ 2024 3 ((2024 : Int), 3, 7)).1 ⟨rfl, rfl⟩, ?_⟩
  exact (C4_clear_month_scoped _ 2024 3 ((2025 : Int), 1, 1)).2 (by decide)

/-- C8: every store entry `((y, m, d), v)` is serialized by `_save_events`
under the composite key `"{y}-{m}-{d}"`; for nonnegative components the key
is the three plain decimal digit strings joined by dashes, each digit string
decoding to its component and carrying no zero-padding (no leading `'0'`
except for the single digit of zero itself). -/
theorem C8_key_format (st : Events) (y m d : Int) (v : Json) (n : Nat)
    (hmem : ((y, m, d), v) ∈ st) :
    (formatKey y m d, v) ∈ saveEntries st
    ∧ (save_events st File.absent true).2.1 = File.content (Json.jobj (saveEntries st))
    ∧ (¬ y < 0 → ¬ m < 0 → ¬ d < 0 →
        formatKey y m d
          = natToChars y.toNat ++ ('-' :: (natToChars m.toNat ++ ('-' :: natToChars d.toNat))))
    ∧ (natToChars n).all Char.isDigit = true
    ∧ decVal (natToChars n) = n
    ∧ (natToChars n = ['0'] ∨ (natToChars n).head? ≠ some '0') := by
  refine ⟨?_, rfl, ?_, ?_, decVal_natToChars n, ?_⟩
  · exact List.mem_map_of_mem encodeEntry hmem
  · intro hy hm hd
    unfold formatKey
    rw [intToChars_nonneg hy, intToChars_nonneg hm, intToChars_nonneg hd]
  · rw [List.all_eq_true]
    exact fun c hc => natToChars_all_digit n c hc
  · by_cases hn : n = 0
    · left
      rw [hn]
      rfl
    · right
      exact natToChars_head_ne_zero n hn

/-- C8 witness: the entry for `(2024, 3, 7)` is serialized under the key
`"2024-3-7"`, whose digit groups decode back to the components. -/
theorem C8_key_format_witness :
    ((((2024 : Int), (3 : Int), (7 : Int)), eventObj "X".toList [])
        ∈ ([((((2024 : Int), (3 : Int), (7 : Int))), eventObj "X".toList [])] : Events))
    ∧ (formatKey 2024 3 7, eventObj "X".toList [])
        ∈ saveEntries [((((2024 : Int), (3 : Int), (7 : Int))), eventObj "X".toList [])]
    ∧ formatKey 2024 3 7 = "2024-3-7".toList
    ∧ decVal (natToChars 2024) = 2024 := by
  have h := C8_key_format [((((2024 : Int), (3 : Int), (7 : Int))), eventObj "X".toList [])]
    2024 3 7 (eventObj "X".toList []) 2024 (List.mem_singleton.mpr rfl)
  exact ⟨List.mem_singleton.mpr rfl, h.1, rfl, h.2.2.2.2.1⟩

end CalendarApp
